import Mathlib

/-
  Verification of the chunked multipart upload engine of `src/modules/aws.py`
  (the iceshelf repository), against its natural-language specification.

  Shallow embedding conventions:
  * A file is modelled by its byte content, a `List Nat` (each entry < 256);
    the file-existence check (`os.path.exists`) is the modelling boundary:
    all theorems speak about the content of an existing file.
  * `hashlib.sha256` is modelled by a full executable SHA-256 over byte
    lists (constants derived from the square/cube roots of the primes, as in
    FIPS 180-4).  Hash objects are modelled by their digests; the source
    compares `hexdigest()` strings, and hex encoding is injective, so digest
    comparison is equality of the 32-byte digest lists.
  * The external `aws` transport is an oracle (`AwsEnv`): the initiate call
    either yields an upload id or fails, each `upload-multipart-part` call
    (indexed by part number and attempt number) yields either a checksum or
    an error, and the complete call either succeeds or fails.  Waiting
    (`time.sleep`) and logging have no semantic content and are dropped.
  * Loops are embedded as fuel-based structural recursions; the fuel chosen
    at each call site provably suffices, and exhausted fuel (or an uncaught
    Python exception such as an out-of-range list index) is `none`.
  * Python 2 `/` on integers is floor division; `math.ceil(float(a)/float(b))`
    with `b = 2^20` is modelled by exact ceiling division `cdiv a b`, which
    agrees with the double-precision computation for all `a < 2^53` because
    dividing a float by the power of two `2^20` is exact.
  * Line 255 of the source calls uploadFile with unbalanced parentheses
    (a closing parenthesis is missing after the progress-text format
    arguments); the embedding follows the evident intent of passing the
    progress text, the file, the staging path and the byte counters as
    separate arguments.
-/

/-! ## Arithmetic helpers -/

/-- Ceiling division on naturals: `cdiv n d = ⌈n / d⌉` for `d > 0`. -/
def cdiv (n d : Nat) : Nat := (n + d - 1) / d

/-- Split a list into consecutive chunks of `k` elements (the last chunk may
be short).  Fuel-based; any fuel `≥ l.length` gives the full chunking when
`0 < k`.  This models the `f.read(n)` loops of the source. -/
def chunkListF {α : Type} (k : Nat) : Nat → List α → List (List α)
  | _, [] => []
  | 0, _ :: _ => []
  | fuel+1, l => l.take k :: chunkListF k fuel (l.drop k)

/-! ## SHA-256 (model of `hashlib.sha256`) -/

/-- Integer cube root by binary search (used to derive the SHA-256 round
constants from the first 64 primes, as FIPS 180-4 specifies). -/
def icbrtGo (n : Nat) : Nat → Nat → Nat → Nat
  | lo, _, 0 => lo
  | lo, hi, fuel+1 =>
    let mid := (lo + hi + 1) / 2
    if mid * mid * mid ≤ n then icbrtGo n mid hi fuel else icbrtGo n lo (mid - 1) fuel

/-- Integer cube root: the largest `r` with `r^3 ≤ n`. -/
def icbrt (n : Nat) : Nat := icbrtGo n 0 n 256

/-- The first 64 primes. -/
def sha256Primes : List Nat :=
  [2, 3, 5, 7, 11, 13, 17, 19, 23, 29, 31, 37, 41, 43, 47, 53,
   59, 61, 67, 71, 73, 79, 83, 89, 97, 101, 103, 107, 109, 113, 127, 131,
   137, 139, 149, 151, 157, 163, 167, 173, 179, 181, 191, 193, 197, 199, 211, 223,
   227, 229, 233, 239, 241, 251, 257, 263, 269, 271, 277, 281, 283, 293, 307, 311]

/-- SHA-256 round constants: first 32 bits of the fractional parts of the
cube roots of the first 64 primes. -/
def sha256K : List Nat := sha256Primes.map (fun p => icbrt (p * 2^96) % 2^32)

/-- SHA-256 initial hash value: first 32 bits of the fractional parts of the
square roots of the first 8 primes. -/
def sha256H0 : List Nat := (sha256Primes.take 8).map (fun p => Nat.sqrt (p * 2^64) % 2^32)

/-- Right rotation of a 32-bit word. -/
def rotr (x n : Nat) : Nat := ((x >>> n) ||| (x <<< (32 - n))) % 2^32

/-- Big-endian bytes (length a multiple of 4) to 32-bit words. -/
def toWords : List Nat → List Nat
  | b0 :: b1 :: b2 :: b3 :: rest => (((b0 * 256 + b1) * 256 + b2) * 256 + b3) :: toWords rest
  | _ => []

/-- The 8-byte big-endian encoding of `n`. -/
def be8 (n : Nat) : List Nat := (List.range 8).map (fun i => n / 2^(56 - 8*i) % 256)

/-- SHA-256 padding: append `0x80`, zeros to 56 mod 64 bytes, then the
message bit length as 8 big-endian bytes. -/
def padBytes (msg : List Nat) : List Nat :=
  msg ++ 128 :: List.replicate ((119 - msg.length % 64) % 64) 0 ++ be8 (8 * msg.length)

/-- One step of the SHA-256 message-schedule extension. -/
def schedStep (w : List Nat) : List Nat :=
  let t := w.length
  let s0 := rotr (w.getD (t-15) 0) 7 ^^^ rotr (w.getD (t-15) 0) 18 ^^^ (w.getD (t-15) 0 >>> 3)
  let s1 := rotr (w.getD (t-2) 0) 17 ^^^ rotr (w.getD (t-2) 0) 19 ^^^ (w.getD (t-2) 0 >>> 10)
  w ++ [(w.getD (t-16) 0 + s0 + w.getD (t-7) 0 + s1) % 2^32]

/-- Iterated message-schedule extension (48 steps take 16 words to 64). -/
def sched : Nat → List Nat → List Nat
  | 0, w => w
  | n+1, w => sched n (schedStep w)

/-- One SHA-256 round: state `[a,b,c,d,e,f,g,h]` and a pair of schedule word
and round constant. -/
def compStep (st : List Nat) (wk : Nat × Nat) : List Nat :=
  match st with
  | [a, b, c, d, e, f, g, hh] =>
    let s1 := rotr e 6 ^^^ rotr e 11 ^^^ rotr e 25
    let ch := (e &&& f) ^^^ ((e ^^^ 4294967295) &&& g)
    let temp1 := (hh + s1 + ch + wk.2 + wk.1) % 2^32
    let s0 := rotr a 2 ^^^ rotr a 13 ^^^ rotr a 22
    let maj := (a &&& b) ^^^ (a &&& c) ^^^ (b &&& c)
    let temp2 := (s0 + maj) % 2^32
    [(temp1 + temp2) % 2^32, a, b, c, (d + temp1) % 2^32, e, f, g]
  | _ => st

/-- SHA-256 compression of one 64-byte block into the chaining state. -/
def compressBlock (st : List Nat) (block : List Nat) : List Nat :=
  let w := sched 48 (toWords block)
  let out := (w.zip sha256K).foldl compStep st
  (st.zip out).map (fun p => (p.1 + p.2) % 2^32)

/-- The 4 big-endian bytes of a 32-bit word. -/
def wordBytes (w : Nat) : List Nat := [w / 2^24 % 256, w / 2^16 % 256, w / 2^8 % 256, w % 256]

/-- SHA-256 digest (32 bytes) of a byte list.  Checked against the FIPS
180-4 test vectors for the empty message, the three-byte message abc and the 56-byte two-block
message. -/
def sha256 (msg : List Nat) : List Nat :=
  let padded := padBytes msg
  (((chunkListF 64 padded.length padded).foldl compressBlock sha256H0).map wordBytes).flatten

/-! ## The embedded source functions -/

/-- One mebibyte, `1024**2`: the physical hashing block size and the minimum
part size. -/
def MiB : Nat := 1048576

/-- Model of `extractChunk(file, tmp, offset, size)`, lines 92-98: seeks to `offset`,
reads up to `size` bytes (the operating system truncates a read that goes
past end of file) into the staging file, and always returns `True`.  The
result is the returned flag together with the staged bytes. -/
def extractChunk (content : List Nat) (offset size : Nat) : Bool × List Nat :=
  (true, (content.drop offset).take size)

/-- One level of the tree-hash combination, lines 123-126: adjacent digests
are paired and each pair `(h1, h2)` is replaced by `sha256(h1.digest() +
h2.digest())`; an odd trailing digest is carried forward unpaired. -/
def pairUp : List (List Nat) → List (List Nat)
  | d1 :: d2 :: rest => sha256 (d1 ++ d2) :: pairUp rest
  | l => l

/-- The inner `recurse(hashlist, size)` of `hashFile`, lines 117-131: if the
node size of the current level equals `chunkSize` the level is captured into
`final`; then the level is paired up and, while more than one node remains,
the recursion continues with doubled node size; a single remaining node is
the root (`output[0]`, which raises IndexError — `none` — on an empty list).
The result is the captured `final` list and the root.  Fuel-based: any fuel
`≥ hashlist.length` suffices for a nonempty list. -/
def recurseHash (chunkSize : Nat) : Nat → List (List Nat) → Nat → List (List Nat) × Option (List Nat)
  | 0, _, _ => ([], none)
  | fuel+1, hashlist, size =>
    let captured := if size = chunkSize then hashlist else []
    let output := pairUp hashlist
    if 1 < output.length then
      let r := recurseHash chunkSize fuel output (size * 2)
      (captured ++ r.1, r.2)
    else
      (captured, output.head?)

/-- The per-1 MiB-block digests of the file, lines 107-114: the file is read
in `1024**2`-byte pieces, each hashed with SHA-256. -/
def fileBlocks (content : List Nat) : List (List Nat) :=
  (chunkListF MiB content.length content).map sha256

/-- Model of the expression `blocks or [h(empty)]` of line 133: an empty file contributes the single
digest of the empty byte string. -/
def physBlocks (content : List Nat) : List (List Nat) :=
  if fileBlocks content = [] then [sha256 []] else fileBlocks content

/-- The result of `hashFile`: `blocks` is the captured leaf-digest list
(`final` in the source is the Python variable holding it, returned under the
dictionary key blocks), `final` is the root digest (dictionary key final). -/
structure HashResult where
  blocks : List (List Nat)
  final : List Nat

/-- Model of `hashFile(file, chunkSize)`, lines 100-135, for an existing file with
the given content: per-block digests, then the recursive combination
starting at node size `1024**2`.  `none` models an uncaught exception
(impossible: the initial hash list is never empty). -/
def hashFile (content : List Nat) (chunkSize : Nat) : Option HashResult :=
  match recurseHash chunkSize ((physBlocks content).length + 1) (physBlocks content) MiB with
  | (f, some r) => some ⟨f, r⟩
  | (_, none) => none

/-- One `v |= v >> k` step of the power-of-two rounding trick. -/
def smear1 (v k : Nat) : Nat := v ||| (v >>> k)

/-- The power-of-two rounding of lines 155-161: `v -= 1`, then `v |= v >> k`
for k = 1, 2, 4, 8, 16, then `v += 1`.  (On the unbounded Python integers
these shifts only smear the top bit 31 positions down, so the result is the
next power of two only for arguments below `2^32`-scale.) -/
def bitSmear (n : Nat) : Nat :=
  smear1 (smear1 (smear1 (smear1 (smear1 (n - 1) 1) 2) 4) 8) 16 + 1

/-- The chunk-size planner of `uploadFile`, lines 147-161: start from
`size / 10000` (Python 2 floor division); at most `1024**2` means exactly
`1024**2`; otherwise take `1024**2` times the ceiling of the quotient by
`1024**2` (the `math.ceil` on floats, exact here for sizes below `2^53 ·
10^4`) and round up with `bitSmear`. -/
def planChunkSize (size : Nat) : Nat :=
  let chunkSize := size / 10000
  if chunkSize ≤ MiB then MiB
  else bitSmear (MiB * cdiv chunkSize MiB)

/-- The result of one `upload-multipart-part` transport call, line 199-200:
either a JSON body containing a `checksum`, or anything else (an error
result, a missing body, or a body without a checksum). -/
inductive PartResponse where
  | ok (checksum : List Nat)
  | err

/-- The external `aws` transport as an oracle: whether the initiate call
returns code 0 with an `uploadId` (lines 170-174), the response to the
attempt numbered `a` (0-based) of uploading part `b`, and whether the
complete call returns code 0 (lines 231-234). -/
structure AwsEnv where
  initiateOk : Bool
  partResp : Nat → Nat → PartResponse
  completeOk : Bool

/-- A transport response that does not verify against the expected leaf
digest: an error (or missing checksum), or a differing checksum. -/
def partFails (r : PartResponse) (expected : List Nat) : Prop :=
  match r with
  | PartResponse.ok ck => ck ≠ expected
  | PartResponse.err => True

/-- The retry loop for one part, lines 197-216: up to 10 attempts; a
response with a checksum is compared against the leaf digest at index `block`
(an out-of-range `block` raises IndexError, modelled `none`); a match
breaks out with the current positive `retry` value, anything else
decrements `retry`.  Returns the final value of `retry` (`some 0` means
the budget is exhausted, line 218). -/
def partRetryLoop (env : AwsEnv) (blocks : List (List Nat)) (block : Nat) : Nat → Option Nat
  | 0 => some 0
  | r+1 =>
    match env.partResp block (10 - (r+1)) with
    | PartResponse.ok ck =>
      match blocks[block]? with
      | none => none
      | some expected =>
        if ck = expected then some (r+1) else partRetryLoop env blocks block r
    | PartResponse.err => partRetryLoop env blocks block r

/-- The transfer loop of `uploadFile`, lines 186-226: while bytes remain,
take `chunk = min(remain, chunkSize)`, extract the chunk (the `return False`
of lines 193-194 is kept although `extractChunk` cannot fail), run the part
retry loop, abort with `False` when the retry budget is exhausted, else
advance `offset`, `block` and `remain`.  `some true` means all parts
uploaded.  Fuel-based: fuel `≥ remain` suffices when `chunkSize > 0` (with
`chunkSize = 0` the source loops forever, modelled by `none`). -/
def transferLoop (env : AwsEnv) (content : List Nat) (blocks : List (List Nat)) (chunkSize : Nat) : Nat → Nat → Nat → Nat → Option Bool
  | 0, _, _, remain => if remain = 0 then some true else none
  | fuel+1, offset, block, remain =>
    if remain = 0 then some true
    else
      let chunk := min remain chunkSize
      if (extractChunk content offset chunkSize).1 = false then some false
      else
        match partRetryLoop env blocks block 10 with
        | none => none
        | some 0 => some false
        | some (_+1) => transferLoop env content blocks chunkSize fuel (offset + chunk) (block + 1) (remain - chunk)

/-- Model of the `uploadFile` function, lines 137-238, for an
existing file with the given content: derive the chunk size, hash, initiate,
transfer all parts, then issue the `complete-multipart-upload` call.  The
result is `(returned value, whether the complete call was issued)`; `none`
models an uncaught exception. -/
def uploadFile (env : AwsEnv) (content : List Nat) : Option (Bool × Bool) :=
  let size := content.length
  let chunkSize := planChunkSize size
  match hashFile content chunkSize with
  | none => some (false, false)
  | some hashes =>
    if env.initiateOk = false then some (false, false)
    else
      match transferLoop env content hashes.blocks chunkSize size 0 0 size with
      | none => none
      | some false => some (false, false)
      | some true => some (env.completeOk, true)

/-- The batch loop of `uploadFiles`, lines 250-259: process the files in
order; a failed upload returns `False` immediately — without reaching the
`os.unlink(tmp)` of line 258 — while completing the whole list unlinks the
staging file and returns `True`.  The result is `(returned value, whether
the staging file was unlinked)`; `none` models an uncaught exception
(which also skips the unlink). -/
def uploadFilesGo (envs : Nat → AwsEnv) : Nat → List (List Nat) → Option (Bool × Bool)
  | _, [] => some (true, true)
  | i, f :: rest =>
    match uploadFile (envs i) f with
    | none => none
    | some (false, _) => some (false, false)
    | some (true, _) => uploadFilesGo envs (i+1) rest

/-- Model of `uploadFiles(config, files, bytes)`, lines 240-259: create the shared
staging file (`tempfile.NamedTemporaryFile` raises rather than returning
`None`, so the dead check of lines 244-246 is not modelled) and run the
batch loop; `envs i` is the transport behaviour during the `i`-th file. -/
def uploadFiles (envs : Nat → AwsEnv) (files : List (List Nat)) : Option (Bool × Bool) :=
  uploadFilesGo envs 0 files

/-- The sequence of byte ranges addressed by the transfer loop, lines
186-223: for each part, the first `chunk = min(remain, chunkSize)` bytes of
the staged extraction (the staged file holds the `extractChunk` read of
`chunkSize` bytes at `offset`; `dataRange` addresses its first `chunk`
bytes). -/
def partPieces (content : List Nat) (chunkSize : Nat) : Nat → Nat → Nat → List (List Nat)
  | 0, _, _ => []
  | fuel+1, offset, remain =>
    if remain = 0 then []
    else
      let chunk := min remain chunkSize
      ((extractChunk content offset chunkSize).2).take chunk ::
        partPieces content chunkSize fuel (offset + chunk) (remain - chunk)

/-! ## Derived notions used in the statements -/

/-- The chunk size `uploadFile` derives for a file with this content. -/
def planOf (content : List Nat) : Nat := planChunkSize content.length

/-- The leaf-digest list (the blocks entry of the hash result) `uploadFile` obtains for a
file with this content. -/
def blocksOf (content : List Nat) : List (List Nat) :=
  match hashFile content (planOf content) with
  | some hs => hs.blocks
  | none => []

/-- The number of parts the transfer loop uploads: `⌈size / chunkSize⌉`. -/
def numParts (content : List Nat) : Nat := cdiv content.length (planOf content)

/-- Pure bottom-up pairwise combination of a digest list to a single root
(the recursion of lines 123-131 with the capture step removed). -/
def rootCombine : Nat → List (List Nat) → Option (List Nat)
  | 0, _ => none
  | fuel+1, bs =>
    let output := pairUp bs
    if 1 < output.length then rootCombine fuel output else output.head?

/-- The k-fold iteration of `pairUp`: the k-th level of the hash tree. -/
def levelK : Nat → List (List Nat) → List (List Nat)
  | 0, bs => bs
  | k+1, bs => levelK k (pairUp bs)

/-- A transport whose initiate call succeeds but every part attempt errors. -/
def envFailParts : AwsEnv := ⟨true, fun _ _ => PartResponse.err, true⟩

/-- A transport whose initiate call fails. -/
def envNoInitiate : AwsEnv := ⟨false, fun _ _ => PartResponse.err, true⟩

/-- An honest transport for a file with the given content: every part
attempt returns the locally expected leaf digest, and both control calls
succeed. -/
def envOkFor (content : List Nat) : AwsEnv :=
  ⟨true, fun b _ => PartResponse.ok ((blocksOf content).getD b []), true⟩

/-! ## Helper lemmas: ceiling division -/

theorem cdiv_le_iff {d : Nat} (hd : 0 < d) (n m : Nat) : cdiv n d ≤ m ↔ n ≤ d * m := by
  unfold cdiv
  rw [Nat.div_le_iff_le_mul_add_pred hd]
  omega

theorem lt_cdiv_iff {d : Nat} (hd : 0 < d) (n m : Nat) : m < cdiv n d ↔ d * m < n := by
  rw [← Nat.not_le, ← Nat.not_le, cdiv_le_iff hd]

theorem le_mul_cdiv {d : Nat} (hd : 0 < d) (n : Nat) : n ≤ d * cdiv n d :=
  (cdiv_le_iff hd n (cdiv n d)).mp (Nat.le_refl _)

theorem cdiv_mul {a b : Nat} (ha : 0 < a) (hb : 0 < b) (n : Nat) :
    cdiv (cdiv n a) b = cdiv n (a * b) := by
  apply Nat.le_antisymm
  · rw [cdiv_le_iff hb, cdiv_le_iff ha, ← Nat.mul_assoc]
    exact le_mul_cdiv (Nat.mul_pos ha hb) n
  · rw [cdiv_le_iff (Nat.mul_pos ha hb), Nat.mul_assoc]
    calc n ≤ a * cdiv n a := le_mul_cdiv ha n
    _ ≤ a * (b * cdiv (cdiv n a) b) := by
          exact Nat.mul_le_mul_left a (le_mul_cdiv hb (cdiv n a))

theorem cdiv_le_self {d : Nat} (hd : 0 < d) (n : Nat) : cdiv n d ≤ n := by
  rw [cdiv_le_iff hd]
  exact Nat.le_mul_of_pos_left n hd

theorem cdiv_sub {d n : Nat} (hd : 0 < d) (h : d ≤ n) : cdiv (n - d) d = cdiv n d - 1 := by
  have h2 : n + d - 1 = (n - 1) + d := by omega
  have h3 : n - d + d - 1 = n - 1 := by omega
  unfold cdiv
  rw [h3, h2, Nat.add_div_right _ hd, Nat.succ_sub_one]

theorem cdiv_two (n : Nat) : cdiv n 2 = (n + 1) / 2 := by
  unfold cdiv
  omega

/-! ## Helper lemmas: the power-of-two rounding -/

theorem le_lor_self (x y : Nat) : x ≤ x ||| y := by
  induction x using Nat.strong_induction_on generalizing y with
  | _ x ih =>
    match x with
    | 0 => exact Nat.zero_le _
    | x+1 =>
      have h2 : (x+1) / 2 ≤ ((x+1) ||| y) / 2 := by
        rw [Nat.or_div_two]
        exact ih ((x+1)/2) (Nat.div_lt_self (Nat.succ_pos x) (by norm_num)) (y/2)
      have hm : (x+1) % 2 ≤ ((x+1) ||| y) % 2 := by
        rcases Nat.mod_two_eq_zero_or_one (x+1) with h | h
        · omega
        · have : ((x+1) ||| y) % 2 = 1 := Nat.or_mod_two_eq_one.mpr (Or.inl h)
          omega
      omega

theorem le_smear1 (v k : Nat) : v ≤ smear1 v k := le_lor_self v (v >>> k)

theorem smear1_lt_two_pow {v t : Nat} (hv : v < 2^t) (k : Nat) : smear1 v k < 2^t := by
  refine Nat.or_lt_two_pow hv (Nat.lt_of_le_of_lt ?_ hv)
  rw [Nat.shiftRight_eq_div_pow]
  exact Nat.div_le_self _ _

theorem le_bitSmear (m : Nat) : m ≤ bitSmear m := by
  unfold bitSmear
  have c1 := le_smear1 (m - 1) 1
  have c2 := le_smear1 (smear1 (m - 1) 1) 2
  have c3 := le_smear1 (smear1 (smear1 (m - 1) 1) 2) 4
  have c4 := le_smear1 (smear1 (smear1 (smear1 (m - 1) 1) 2) 4) 8
  have c5 := le_smear1 (smear1 (smear1 (smear1 (smear1 (m - 1) 1) 2) 4) 8) 16
  omega

theorem bitSmear_le {m : Nat} (hm : 2 ≤ m) : bitSmear m ≤ 2 * (m - 1) := by
  unfold bitSmear
  have hx1 : m - 1 ≠ 0 := by omega
  have h0 : m - 1 < 2 ^ (Nat.log 2 (m-1) + 1) := Nat.lt_pow_succ_log_self (by norm_num) (m-1)
  have h5 := smear1_lt_two_pow (smear1_lt_two_pow (smear1_lt_two_pow (smear1_lt_two_pow
    (smear1_lt_two_pow h0 1) 2) 4) 8) 16
  have hp : 2 ^ (Nat.log 2 (m-1) + 1) ≤ 2 * (m - 1) := by
    rw [Nat.pow_succ, Nat.mul_comm]
    exact Nat.mul_le_mul_left 2 (Nat.pow_log_le_self 2 hx1)
  omega

/-! ## Helper lemmas: the chunk planner -/

theorem planChunkSize_eq (s : Nat) : planChunkSize s =
    if s / 10000 ≤ MiB then MiB else bitSmear (MiB * cdiv (s / 10000) MiB) := rfl

theorem two_le_cdiv_MiB {q : Nat} (h : MiB < q) : 2 ≤ cdiv q MiB := by
  have h1 : MiB * 1 < q := by omega
  have h2 := (lt_cdiv_iff (by decide : 0 < MiB) q 1).mpr h1
  omega

theorem two_MiB_le_smeared {q : Nat} (h : MiB < q) : 2 * MiB ≤ bitSmear (MiB * cdiv q MiB) := by
  have hc2 := two_le_cdiv_MiB h
  have hmul : MiB * 2 ≤ MiB * cdiv q MiB := Nat.mul_le_mul_left MiB hc2
  have := le_bitSmear (MiB * cdiv q MiB)
  have hM : MiB = 1048576 := rfl
  omega

theorem MiB_le_plan (s : Nat) : MiB ≤ planChunkSize s := by
  rw [planChunkSize_eq]
  split
  · exact Nat.le_refl _
  · rename_i h
    have := two_MiB_le_smeared (by omega : MiB < s / 10000)
    omega

theorem plan_pos (s : Nat) : 0 < planChunkSize s :=
  Nat.lt_of_lt_of_le (by decide) (MiB_le_plan s)

theorem two_MiB_le_plan {s : Nat} (h : MiB < s / 10000) : 2 * MiB ≤ planChunkSize s := by
  rw [planChunkSize_eq, if_neg (by omega)]
  exact two_MiB_le_smeared h

theorem plan_lt_size {s : Nat} (h : MiB < s / 10000) : planChunkSize s < s := by
  have hqs : 10000 * (s / 10000) ≤ s := Nat.mul_div_le s 10000
  have hm : MiB * cdiv (s / 10000) MiB ≤ s / 10000 + MiB - 1 := by
    unfold cdiv
    exact Nat.mul_div_le _ _
  have hc2 := two_le_cdiv_MiB h
  have hmul : MiB * 2 ≤ MiB * cdiv (s / 10000) MiB := Nat.mul_le_mul_left MiB hc2
  have hM : MiB = 1048576 := rfl
  have h2m : 2 ≤ MiB * cdiv (s / 10000) MiB := by omega
  have hb := bitSmear_le h2m
  have hplan : planChunkSize s = bitSmear (MiB * cdiv (s / 10000) MiB) := by
    rw [planChunkSize_eq, if_neg (by omega)]
  have hd1 : s / 10000 ≤ s / 8 := Nat.div_le_div_left (by norm_num) (by norm_num)
  have hd2 : 4 * (s / 8) ≤ s / 2 := by
    have h8 : s / 8 = s / 2 / 4 := by rw [Nat.div_div_eq_div_mul]
    rw [h8, Nat.mul_comm]
    exact Nat.div_mul_le_self (s / 2) 4
  have hd3 : s / 2 < s := Nat.div_lt_self (by omega) (by norm_num)
  omega

/-! ## Helper lemmas: list chunking and tree levels -/

theorem chunkListF_length {α : Type} {k : Nat} (hk : 0 < k) :
    ∀ fuel (l : List α), l.length ≤ fuel → (chunkListF k fuel l).length = cdiv l.length k := by
  intro fuel
  induction fuel with
  | zero =>
    intro l hl
    have h0 : l = [] := List.length_eq_zero.mp (Nat.le_zero.mp hl)
    subst h0
    show 0 = cdiv 0 k
    unfold cdiv
    rw [Nat.zero_add]
    exact (Nat.div_eq_of_lt (by omega)).symm
  | succ f ih =>
    intro l hl
    cases l with
    | nil =>
      show 0 = cdiv 0 k
      unfold cdiv
      rw [Nat.zero_add]
      exact (Nat.div_eq_of_lt (by omega)).symm
    | cons a t =>
      simp only [List.length_cons] at hl
      simp only [chunkListF, List.length_cons]
      rw [ih ((a :: t).drop k) (by simp only [List.length_drop, List.length_cons]; omega)]
      rw [List.length_drop, List.length_cons]
      by_cases hk2 : k ≤ t.length + 1
      · rw [cdiv_sub hk hk2]
        have h1 : 0 < cdiv (t.length + 1) k := (lt_cdiv_iff hk _ 0).mpr (by omega)
        omega
      · have e0 : t.length + 1 - k = 0 := by omega
        rw [e0]
        have hz : cdiv 0 k = 0 := by
          unfold cdiv
          rw [Nat.zero_add]
          exact Nat.div_eq_of_lt (by omega)
        have h1 : cdiv (t.length + 1) k = 1 := by
          apply Nat.le_antisymm
          · rw [cdiv_le_iff hk]
            omega
          · exact (lt_cdiv_iff hk _ 0).mpr (by omega)
        omega

theorem pairUp_length (l : List (List Nat)) : (pairUp l).length = cdiv l.length 2 := by
  induction l using pairUp.induct with
  | case1 d1 d2 rest ih =>
    simp only [pairUp, List.length_cons, ih, cdiv]
    omega
  | case2 l h =>
    match l, h with
    | [], _ => rfl
    | [d], _ => simp [pairUp, cdiv]
    | d1 :: d2 :: r, h => exact (h d1 d2 r rfl).elim

theorem pairUp_ne_nil {l : List (List Nat)} (h : l ≠ []) : pairUp l ≠ [] := by
  intro hc
  have hl := pairUp_length l
  rw [hc] at hl
  have hp : 0 < l.length := List.length_pos.mpr h
  simp only [List.length_nil, cdiv] at hl
  omega

theorem levelK_length (k : Nat) : ∀ bs, (levelK k bs).length = cdiv bs.length (2^k) := by
  induction k with
  | zero =>
    intro bs
    show bs.length = cdiv bs.length (2^0)
    simp only [Nat.pow_zero, cdiv]
    omega
  | succ k ih =>
    intro bs
    show (levelK k (pairUp bs)).length = _
    rw [ih (pairUp bs), pairUp_length,
      cdiv_mul (by norm_num) (Nat.pos_pow_of_pos k (by norm_num)), Nat.pow_succ, Nat.mul_comm]

/-! ## Helper lemmas: the recursive tree hash -/

theorem recurseHash_snd (c : Nat) : ∀ fuel bs size,
    (recurseHash c fuel bs size).2 = rootCombine fuel bs := by
  intro fuel
  induction fuel with
  | zero => intro bs size; rfl
  | succ f ih =>
    intro bs size
    simp only [recurseHash, rootCombine]
    by_cases h : 1 < (pairUp bs).length <;> simp [h, ih]

theorem rootCombine_isSome : ∀ fuel (bs : List (List Nat)), bs ≠ [] → bs.length ≤ fuel →
    (rootCombine fuel bs).isSome := by
  intro fuel
  induction fuel with
  | zero =>
    intro bs h hl
    have : 0 < bs.length := List.length_pos.mpr h
    omega
  | succ f ih =>
    intro bs h hl
    simp only [rootCombine]
    by_cases hlt : 1 < (pairUp bs).length
    · rw [if_pos hlt]
      refine ih _ ?_ ?_
      · intro hc
        rw [hc] at hlt
        simp at hlt
      · have hp := pairUp_length bs
        rw [pairUp_length] at hlt
        simp only [cdiv] at hlt hp ⊢
        omega
    · rw [if_neg hlt]
      simp only [List.head?_isSome]
      exact pairUp_ne_nil h

theorem recurseHash_fst_nil (c : Nat) : ∀ fuel bs size,
    (∀ j : Nat, size * 2^j ≠ c) → (recurseHash c fuel bs size).1 = [] := by
  intro fuel
  induction fuel with
  | zero => intro bs size _; rfl
  | succ f ih =>
    intro bs size h
    have h0 : size ≠ c := by
      have := h 0
      simpa using this
    simp only [recurseHash]
    by_cases hlt : 1 < (pairUp bs).length
    · rw [if_pos hlt]
      simp only [if_neg h0, List.nil_append]
      apply ih
      intro j hc
      apply h (j + 1)
      rw [Nat.pow_succ, ← hc]
      ring
    · rw [if_neg hlt]
      simp only [if_neg h0]

theorem recurseHash_fst_capture (c : Nat) : ∀ k fuel bs size, bs.length ≤ fuel → 0 < size →
    c = size * 2^k → (k = 0 ∨ 1 < (levelK k bs).length) →
    (recurseHash c fuel bs size).1 = levelK k bs := by
  intro k
  induction k with
  | zero =>
    intro fuel bs size hfuel hsize hc _
    rw [Nat.pow_zero, Nat.mul_one] at hc
    subst hc
    cases fuel with
    | zero =>
      have h0 : bs = [] := List.length_eq_zero.mp (Nat.le_zero.mp hfuel)
      subst h0
      rfl
    | succ f =>
      simp only [recurseHash, if_pos rfl]
      have hdeep : (recurseHash c f (pairUp bs) (c * 2)).1 = [] := by
        apply recurseHash_fst_nil
        intro j hc2
        have h2 : c * 2 * 2^j = c * 2^(j+1) := by
          rw [Nat.pow_succ]
          ring
        rw [h2] at hc2
        have hp : (2:Nat) ≤ 2^(j+1) := by
          calc (2:Nat) = 2^1 := (pow_one 2).symm
          _ ≤ 2^(j+1) := Nat.pow_le_pow_right (by norm_num) (by omega)
        have hmul : c * 2 ≤ c * 2^(j+1) := Nat.mul_le_mul_left c hp
        omega
      by_cases hlt : 1 < (pairUp bs).length
      · rw [if_pos hlt]
        simp [hdeep, levelK]
      · rw [if_neg hlt]
        simp [levelK]
  | succ k ih =>
    intro fuel bs size hfuel hsize hc hcap
    rcases hcap with h0 | hcap
    · exact absurd h0 (Nat.succ_ne_zero k)
    have hn : 2^(k+1) < bs.length := by
      rw [levelK_length] at hcap
      have := (lt_cdiv_iff (Nat.pos_pow_of_pos (k+1) (by norm_num)) bs.length 1).mp hcap
      omega
    have h2p : (2:Nat) ≤ 2^(k+1) := by
      calc (2:Nat) = 2^1 := (pow_one 2).symm
      _ ≤ 2^(k+1) := Nat.pow_le_pow_right (by norm_num) (by omega)
    have hpair : 1 < (pairUp bs).length := by
      rw [pairUp_length]
      refine (lt_cdiv_iff (by norm_num) _ 1).mpr ?_
      omega
    have hne : size ≠ c := by
      rw [hc]
      intro hcc
      have hmul : size * 2 ≤ size * 2^(k+1) := Nat.mul_le_mul_left size h2p
      omega
    cases fuel with
    | zero => omega
    | succ f =>
      simp only [recurseHash]
      rw [if_pos hpair]
      simp only [if_neg hne, List.nil_append]
      show (recurseHash c f (pairUp bs) (size * 2)).1 = levelK k (pairUp bs)
      apply ih f (pairUp bs) (size * 2)
      · rw [pairUp_length]
        simp only [cdiv]
        omega
      · omega
      · rw [hc, Nat.pow_succ]
        ring
      · right
        exact hcap

/-! ## Helper lemmas: hashFile and its leaf list -/

theorem physBlocks_ne_nil (content : List Nat) : physBlocks content ≠ [] := by
  unfold physBlocks
  split
  · simp
  · rename_i h
    exact h

theorem fileBlocks_length (content : List Nat) :
    (fileBlocks content).length = cdiv content.length MiB := by
  unfold fileBlocks
  rw [List.length_map]
  exact chunkListF_length (by decide) content.length content (Nat.le_refl _)

theorem physBlocks_length (content : List Nat) :
    (physBlocks content).length = max 1 (cdiv content.length MiB) := by
  unfold physBlocks
  split
  · rename_i h
    have h0 := fileBlocks_length content
    rw [h] at h0
    simp only [List.length_nil] at h0
    simp only [List.length_cons, List.length_nil]
    omega
  · rename_i h
    rw [fileBlocks_length]
    have hpos : 0 < (fileBlocks content).length := List.length_pos.mpr h
    rw [fileBlocks_length] at hpos
    omega

theorem hashFile_spec (content : List Nat) (c : Nat) :
    ∃ hs, hashFile content c = some hs ∧
      hs.blocks = (recurseHash c ((physBlocks content).length + 1) (physBlocks content) MiB).1 := by
  have hne := physBlocks_ne_nil content
  have hsome : (rootCombine ((physBlocks content).length + 1) (physBlocks content)).isSome :=
    rootCombine_isSome _ _ hne (by omega)
  rw [← recurseHash_snd c _ _ MiB] at hsome
  unfold hashFile
  rcases hrec : recurseHash c ((physBlocks content).length + 1) (physBlocks content) MiB with ⟨f, r⟩
  rw [hrec] at hsome
  cases r with
  | none => simp at hsome
  | some root =>
    exact ⟨⟨f, root⟩, rfl, rfl⟩

theorem blocksOf_eq (content : List Nat) :
    blocksOf content =
      (recurseHash (planOf content) ((physBlocks content).length + 1) (physBlocks content) MiB).1 := by
  obtain ⟨hs, hh, hb⟩ := hashFile_spec content (planOf content)
  unfold blocksOf
  rw [hh]
  exact hb

theorem blocksOf_length_of_pow2 (content : List Nat)
    (hpow : ∃ k : Nat, planOf content = MiB * 2^k) :
    (blocksOf content).length = max 1 (cdiv content.length (planOf content)) := by
  rw [blocksOf_eq]
  by_cases hbr : content.length / 10000 ≤ MiB
  · -- the planner chose the minimum part size: the captured level is level 0
    have hplan : planOf content = MiB := by
      unfold planOf
      rw [planChunkSize_eq, if_pos hbr]
    rw [hplan]
    rw [recurseHash_fst_capture MiB 0 _ _ MiB (by omega) (by decide) (by simp) (Or.inl rfl)]
    show (physBlocks content).length = _
    rw [physBlocks_length]
  · -- the planner rounded up: the captured level is level k ≥ 1
    obtain ⟨k, hk⟩ := hpow
    have hbig : MiB < content.length / 10000 := by omega
    have h2M : 2 * MiB ≤ planOf content := two_MiB_le_plan hbig
    have hk1 : 1 ≤ k := by
      by_contra hk0
      push_neg at hk0
      interval_cases k
      simp only [Nat.pow_zero, Nat.mul_one] at hk
      have hM : MiB = 1048576 := rfl
      omega
    have hlt : planOf content < content.length := plan_lt_size hbig
    have hMpos : (0:Nat) < MiB := by decide
    have h2kpos : (0:Nat) < 2^k := Nat.pos_pow_of_pos k (by norm_num)
    have hs0 : 0 < content.length := by omega
    -- the level k list has more than one node because chunkSize < size
    have hpb : (physBlocks content).length = cdiv content.length MiB := by
      rw [physBlocks_length]
      have : 0 < cdiv content.length MiB := (lt_cdiv_iff hMpos _ 0).mpr (by omega)
      omega
    have hlev : (levelK k (physBlocks content)).length = cdiv content.length (planOf content) := by
      rw [levelK_length, hpb, cdiv_mul hMpos h2kpos, ← hk]
    have hcap : 1 < (levelK k (physBlocks content)).length := by
      rw [hlev]
      refine (lt_cdiv_iff (by omega) _ 1).mpr ?_
      omega
    rw [recurseHash_fst_capture (planOf content) k _ _ MiB (by omega) (by decide)
      (by rw [hk]) (Or.inr hcap)]
    rw [hlev]
    have : 0 < cdiv content.length (planOf content) := by omega
    omega

/-! ## Helper lemmas: the part retry loop and transfer loop -/

theorem partRetryLoop_exhausted (env : AwsEnv) (blocks : List (List Nat)) (block : Nat)
    (hlt : block < blocks.length)
    (hfail : ∀ a, a < 10 → partFails (env.partResp block a) (blocks.getD block [])) :
    ∀ f, f ≤ 10 → partRetryLoop env blocks block f = some 0 := by
  intro f
  induction f with
  | zero => intro _; rfl
  | succ r ih =>
    intro hf
    have ha : 10 - (r+1) < 10 := by omega
    have hfa := hfail (10 - (r+1)) ha
    simp only [partRetryLoop]
    cases hresp : env.partResp block (10 - (r+1)) with
    | ok ck =>
      rw [hresp] at hfa
      have hget : blocks[block]? = some blocks[block] := List.getElem?_eq_getElem hlt
      rw [hget]
      have hgd : blocks.getD block [] = blocks[block] := by
        rw [List.getD_eq_getElem?_getD, hget]
        rfl
      rw [hgd] at hfa
      show (if ck = blocks[block] then some (r+1) else partRetryLoop env blocks block r) = some 0
      rw [if_neg hfa]
      exact ih (by omega)
    | err => exact ih (by omega)

theorem partRetryLoop_ne_none (env : AwsEnv) (blocks : List (List Nat)) (block : Nat)
    (hlt : block < blocks.length) :
    ∀ f, partRetryLoop env blocks block f ≠ none := by
  intro f
  induction f with
  | zero => simp [partRetryLoop]
  | succ r ih =>
    simp only [partRetryLoop]
    cases hresp : env.partResp block (10 - (r+1)) with
    | ok ck =>
      have hget : blocks[block]? = some blocks[block] := List.getElem?_eq_getElem hlt
      rw [hget]
      show (if ck = blocks[block] then some (r+1) else partRetryLoop env blocks block r) ≠ none
      split
      · simp
      · exact ih
    | err => exact ih

theorem transferLoop_aborts (env : AwsEnv) (content : List Nat) (blocks : List (List Nat))
    (chunkSize b : Nat) (hc : 0 < chunkSize)
    (hlen : ∀ i, i ≤ b → i < blocks.length)
    (hfail : ∀ a, a < 10 → partFails (env.partResp b a) (blocks.getD b [])) :
    ∀ fuel offset block remain, remain ≤ fuel → block ≤ b →
      b < block + cdiv remain chunkSize →
      transferLoop env content blocks chunkSize fuel offset block remain = some false := by
  intro fuel
  induction fuel with
  | zero =>
    intro offset block remain hfuel hble hcount
    have h0 : remain = 0 := by omega
    subst h0
    have : cdiv 0 chunkSize = 0 := by
      unfold cdiv
      rw [Nat.zero_add]
      exact Nat.div_eq_of_lt (by omega)
    omega
  | succ f ih =>
    intro offset block remain hfuel hble hcount
    by_cases hrem : remain = 0
    · subst hrem
      have : cdiv 0 chunkSize = 0 := by
        unfold cdiv
        rw [Nat.zero_add]
        exact Nat.div_eq_of_lt (by omega)
      omega
    · simp only [transferLoop, if_neg hrem]
      have hext : (extractChunk content offset chunkSize).1 = true := rfl
      rw [hext]
      simp only [Bool.true_eq_false, if_false]
      cases hr : partRetryLoop env blocks block 10 with
      | none => exact absurd hr (partRetryLoop_ne_none env blocks block (hlen block hble) 10)
      | some r =>
        cases r with
        | zero => rfl
        | succ r2 =>
          by_cases hbb : block = b
          · subst hbb
            rw [partRetryLoop_exhausted env blocks block (hlen block (Nat.le_refl _)) hfail 10
              (Nat.le_refl _)] at hr
            simp at hr
          · have hblt : block < b := by omega
            have hrc : chunkSize < remain := by
              by_contra hcc
              push_neg at hcc
              have h1 : cdiv remain chunkSize ≤ 1 := by
                rw [cdiv_le_iff hc]
                omega
              omega
            have hmin : min remain chunkSize = chunkSize := by omega
            rw [hmin]
            apply ih (offset + chunkSize) (block + 1) (remain - chunkSize) (by omega) (by omega)
            rw [cdiv_sub hc (by omega)]
            have hpos : 0 < cdiv remain chunkSize := (lt_cdiv_iff hc _ 0).mpr (by omega)
            omega

/-! ## Helper lemmas: the addressed part ranges -/

theorem partPieces_flatten (content : List Nat) (chunkSize : Nat) (hc : 0 < chunkSize) :
    ∀ fuel offset remain, offset ≤ content.length → remain = content.length - offset →
      remain ≤ fuel →
      (partPieces content chunkSize fuel offset remain).flatten = content.drop offset := by
  intro fuel
  induction fuel with
  | zero =>
    intro offset remain hoff hrem hfuel
    have h0 : remain = 0 := by omega
    have hoe : offset = content.length := by omega
    subst hoe
    rw [h0]
    simp [partPieces]
  | succ f ih =>
    intro offset remain hoff hrem hfuel
    by_cases hrem0 : remain = 0
    · have hoe : offset = content.length := by omega
      subst hoe
      rw [hrem0]
      simp [partPieces]
    · simp only [partPieces, if_neg hrem0, List.flatten_cons]
      have hstaged : (extractChunk content offset chunkSize).2 = (content.drop offset).take chunkSize := rfl
      rw [hstaged, List.take_take]
      have hmin2 : min (min remain chunkSize) chunkSize = min remain chunkSize := by omega
      rw [hmin2]
      have hchunkpos : 0 < min remain chunkSize := by omega
      rw [ih (offset + min remain chunkSize) (remain - min remain chunkSize) (by omega) (by omega)
        (by omega)]
      have hdd : content.drop (offset + min remain chunkSize) =
          (content.drop offset).drop (min remain chunkSize) := by
        rw [List.drop_drop, Nat.add_comm]
      rw [hdd, List.take_append_drop]

/-! ## Further characterizations used by the claim theorems -/

theorem uploadFile_eq (env : AwsEnv) (content : List Nat) (hs : HashResult)
    (hh : hashFile content (planChunkSize content.length) = some hs) :
    uploadFile env content =
      if env.initiateOk = false then some (false, false)
      else
        match transferLoop env content hs.blocks (planChunkSize content.length)
            content.length 0 0 content.length with
        | none => none
        | some false => some (false, false)
        | some true => some (env.completeOk, true) := by
  simp only [uploadFile]
  rw [hh]

theorem hashFile_map_final (content : List Nat) (c : Nat) :
    (hashFile content c).map HashResult.final =
      rootCombine ((physBlocks content).length + 1) (physBlocks content) := by
  have hsnd := recurseHash_snd c ((physBlocks content).length + 1) (physBlocks content) MiB
  unfold hashFile
  rcases hrec : recurseHash c ((physBlocks content).length + 1) (physBlocks content) MiB with ⟨f, r⟩
  rw [hrec] at hsnd
  cases r with
  | none => rw [← hsnd]; rfl
  | some root => rw [← hsnd]; rfl

/-! ## Claim theorems -/

/-- C1: the claim states that for every file size the derived chunk size is
a power of two, at least 1 MiB, and satisfies `ceil(s / chunkSize) ≤ 10000`.
The part-count bound fails on the code: for a file of `10000 * 1MiB + 1`
bytes the Python 2 floor division `size / 10000` yields exactly `1 MiB`, so
the planner keeps the minimum chunk size and the transfer loop needs
`10001 > 10000` parts — contradicting the cap that the comment in the code
(Due to limit of 10000 parts in an upload, we need to make it all fits)
intends to enforce.  This theorem evaluates the planner at that failing
input. -/
theorem plan_cap_violated :
    planChunkSize (10000 * MiB + 1) = MiB ∧
    10000 < cdiv (10000 * MiB + 1) (planChunkSize (10000 * MiB + 1)) := by
  constructor <;> decide

/-- C2 counterexample: the claim states that a file of `10000 * 1MiB + 1`
bytes derives the next power-of-two part size above 1 MiB (`2 MiB`); on the
code the floor division keeps the quotient at exactly `1 MiB`, so the
derived chunk size is `1 MiB`, not `2 MiB`. -/
theorem plan_boundary_not_next_pow :
    ¬ planChunkSize (10000 * MiB + 1) = 2 * MiB := by decide

/-- C2 amended: a file of exactly `10000 * 1 MiB` bytes derives chunk size
`1 MiB`; a file of `10000 * 1 MiB + 1` bytes also derives `1 MiB` (the
planner floors `size / 10000`); the next power-of-two part size `2 MiB` is
first derived once `size / 10000` exceeds `1 MiB`, e.g. at
`10000 * (1 MiB + 1)` bytes. -/
theorem plan_boundary_one_MiB :
    planChunkSize (10000 * MiB) = MiB ∧
    planChunkSize (10000 * MiB + 1) = MiB ∧
    planChunkSize (10000 * (MiB + 1)) = 2 * MiB := by
  refine ⟨?_, ?_, ?_⟩ <;> decide

/-- C5: the root digest returned by `hashFile` is independent of the chunk
size, and equals the pure bottom-up pairwise SHA-256 combination of the
1 MiB-block digests of the file to a single value. -/
theorem root_independent_of_chunk (content : List Nat) (c1 c2 : Nat) :
    (hashFile content c1).map HashResult.final = (hashFile content c2).map HashResult.final ∧
    (hashFile content c1).map HashResult.final =
      rootCombine ((physBlocks content).length + 1) (physBlocks content) := by
  refine ⟨?_, hashFile_map_final content c1⟩
  rw [hashFile_map_final content c1, hashFile_map_final content c2]

/-- C6: a zero-length file plans to the minimum part size of 1 MiB, and
hashes successfully to the defined root `sha256 []`, the digest of the
empty byte string (with that digest as the single leaf). -/
theorem empty_file_hash_and_plan :
    planChunkSize 0 = MiB ∧
    hashFile [] (planChunkSize 0) = some ⟨[sha256 []], sha256 []⟩ :=
  ⟨rfl, rfl⟩

/-- C7: concatenating, in ascending part order, the byte ranges addressed
for each part — the first `chunk = min(chunkSize, remaining)` bytes of each
staged extraction, at the chunk size the planner derives — reproduces the
exact bytes of the file. -/
theorem addressed_ranges_roundtrip (content : List Nat) :
    (partPieces content (planOf content) content.length 0 content.length).flatten = content := by
  have h := partPieces_flatten content (planOf content) (plan_pos content.length)
    content.length 0 content.length (Nat.zero_le _) (by omega) (by omega)
  simpa using h

/-- C8: `hashFile` is deterministic — two runs on identical content with
identical chunk size return identical results (root and leaf list alike). -/
theorem hashFile_deterministic (c1 c2 : List Nat) (s1 s2 : Nat)
    (h1 : c1 = c2) (h2 : s1 = s2) : hashFile c1 s1 = hashFile c2 s2 := by
  rw [h1, h2]

/-- C8 witness: the determinism theorem applied to a concrete file content
and chunk size. -/
theorem hashFile_deterministic_witness :
    (([0], MiB) = (([0] : List Nat), MiB)) ∧ hashFile [0] MiB = hashFile [0] MiB :=
  ⟨rfl, hashFile_deterministic [0] [0] MiB MiB rfl rfl⟩

/-- C10: `extractChunk` returns `True` for every content, offset and size,
and the staged bytes are the read truncated at end of file (length
`min size (fileLength - offset)`), so the `Unable to extract chunk` branch
of the transfer loop can never be taken. -/
theorem extractChunk_total (content : List Nat) (offset size : Nat) :
    (extractChunk content offset size).1 = true ∧
    ((extractChunk content offset size).2).length = min size (content.length - offset) := by
  refine ⟨rfl, ?_⟩
  show ((content.drop offset).take size).length = _
  rw [List.length_take, List.length_drop]

theorem uploadFilesGo_cons_true (envs : Nat → AwsEnv) (i : Nat) (f : List Nat)
    (rest : List (List Nat)) (b : Bool) (h : uploadFile (envs i) f = some (true, b)) :
    uploadFilesGo envs i (f :: rest) = uploadFilesGo envs (i+1) rest := by
  simp only [uploadFilesGo, h]

theorem partRetryLoop_first_ok (env : AwsEnv) (blocks : List (List Nat)) (block : Nat)
    (hblt : block < blocks.length)
    (hok : env.partResp block 0 = PartResponse.ok (blocks.getD block [])) :
    partRetryLoop env blocks block 10 = some 10 := by
  have hget : blocks[block]? = some blocks[block] := List.getElem?_eq_getElem hblt
  have hgd : blocks.getD block [] = blocks[block] := by
    rw [List.getD_eq_getElem?_getD, hget]
    rfl
  show (match env.partResp block 0 with
    | PartResponse.ok ck =>
      match blocks[block]? with
      | none => none
      | some expected => if ck = expected then some 10 else partRetryLoop env blocks block 9
    | PartResponse.err => partRetryLoop env blocks block 9) = some 10
  rw [hok]
  show (match blocks[block]? with
    | none => none
    | some expected =>
        if blocks.getD block [] = expected then some 10 else partRetryLoop env blocks block 9) =
    some 10
  rw [hget]
  show (if blocks.getD block [] = blocks[block] then some 10
    else partRetryLoop env blocks block 9) = some 10
  rw [hgd, if_pos rfl]

theorem transferLoop_ok (env : AwsEnv) (content : List Nat) (blocks : List (List Nat))
    (chunkSize : Nat) (hc : 0 < chunkSize)
    (hok : ∀ b, b < blocks.length → env.partResp b 0 = PartResponse.ok (blocks.getD b [])) :
    ∀ fuel offset block remain, remain ≤ fuel →
      block + cdiv remain chunkSize ≤ blocks.length →
      transferLoop env content blocks chunkSize fuel offset block remain = some true := by
  intro fuel
  induction fuel with
  | zero =>
    intro offset block remain hfuel _
    have h0 : remain = 0 := by omega
    subst h0
    rfl
  | succ f ih =>
    intro offset block remain hfuel hcount
    by_cases hrem : remain = 0
    · subst hrem
      simp [transferLoop]
    · have hpc : 0 < cdiv remain chunkSize := (lt_cdiv_iff hc _ 0).mpr (by omega)
      have hblt : block < blocks.length := by omega
      simp only [transferLoop, if_neg hrem]
      have hext : (extractChunk content offset chunkSize).1 = true := rfl
      rw [hext]
      simp only [Bool.true_eq_false, if_false]
      rw [partRetryLoop_first_ok env blocks block hblt (hok block hblt)]
      apply ih
      · omega
      · by_cases hrc : remain ≤ chunkSize
        · have hmin : min remain chunkSize = remain := by omega
          rw [hmin, Nat.sub_self]
          have hz : cdiv 0 chunkSize = 0 := by
            unfold cdiv
            rw [Nat.zero_add]
            exact Nat.div_eq_of_lt (by omega)
          omega
        · have hmin : min remain chunkSize = chunkSize := by omega
          rw [hmin, cdiv_sub hc (by omega)]
          omega

/-- C3: the claim states the shared staging file is removed both on batch
success and on early termination.  On the code the early-termination path
(line 256 `return False`) never reaches the `os.unlink(tmp)` of line 258,
so the staging file is left behind; only the all-success path unlinks it.
This theorem evaluates the batch loop on a one-file batch whose initiate
call fails (result `False`, staging file not unlinked) and on the same
batch with an honest transport (result `True`, staging file unlinked). -/
theorem batch_tmpfile_leak :
    uploadFiles (fun _ => envNoInitiate) [[1]] = some (false, false) ∧
    uploadFiles (fun _ => envOkFor [1]) [[1]] = some (true, true) := by
  constructor
  · decide
  · obtain ⟨hs, hh, hbl⟩ := hashFile_spec [1] (planOf [1])
    have hbo : blocksOf [1] = hs.blocks := by
      unfold blocksOf
      rw [hh]
    have hlen1 : (blocksOf [1]).length = 1 := by
      rw [blocksOf_length_of_pow2 [1] ⟨0, by decide⟩]
      decide
    have h1 : uploadFile (envOkFor [1]) [1] = some (true, true) := by
      rw [uploadFile_eq (envOkFor [1]) [1] hs hh]
      rw [if_neg (by decide)]
      rw [show ([1] : List Nat).length = 1 from rfl]
      rw [transferLoop_ok (envOkFor [1]) [1] hs.blocks (planChunkSize 1) (plan_pos 1)
        ?_ 1 0 0 1 (Nat.le_refl _) ?_]
      · rfl
      · intro b _
        show PartResponse.ok ((blocksOf [1]).getD b []) = _
        rw [hbo]
      · rw [← hbo, hlen1]
        have hp : planChunkSize 1 = MiB := by decide
        rw [hp]
        decide
    show uploadFilesGo (fun _ => envOkFor [1]) 0 [[1]] = some (true, true)
    rw [uploadFilesGo_cons_true (fun _ => envOkFor [1]) 0 [1] [] true h1]
    rfl

/-- C4: if all 10 transport attempts for some part fail — an error result,
a missing checksum, or a checksum differing from the locally computed leaf
digest — then `uploadFile` reports failure for the file and never issues
the `complete-multipart-upload` (commit) call.  `b` is the failing part;
the hypotheses say `b` is one of the parts of the upload, the leaf list covers
the parts up to `b` (so the expected digests exist), and every attempt at
part `b` fails. -/
theorem upload_exhausted_part_no_commit (env : AwsEnv) (content : List Nat) (b : Nat)
    (hb : b < numParts content)
    (hlen : ∀ i, i ≤ b → i < (blocksOf content).length)
    (hfail : ∀ a, a < 10 → partFails (env.partResp b a) ((blocksOf content).getD b [])) :
    uploadFile env content = some (false, false) := by
  obtain ⟨hs, hh, hbl⟩ := hashFile_spec content (planOf content)
  have hbo : blocksOf content = hs.blocks := by
    unfold blocksOf
    rw [hh]
  rw [uploadFile_eq env content hs hh]
  by_cases hin : env.initiateOk = false
  · rw [if_pos hin]
  · rw [if_neg hin]
    have hlen2 : ∀ i, i ≤ b → i < hs.blocks.length := by
      intro i hi
      rw [← hbo]
      exact hlen i hi
    have hfail2 : ∀ a, a < 10 → partFails (env.partResp b a) (hs.blocks.getD b []) := by
      intro a ha
      rw [← hbo]
      exact hfail a ha
    have hcount : b < 0 + cdiv content.length (planChunkSize content.length) := by
      unfold numParts planOf at hb
      omega
    have habort := transferLoop_aborts env content hs.blocks (planChunkSize content.length) b
      (plan_pos content.length) hlen2 hfail2 content.length 0 0 content.length
      (Nat.le_refl _) (Nat.zero_le _) hcount
    rw [habort]

/-- C4 witness: the theorem applied to a 3-byte file and a transport whose
initiate call succeeds but every part attempt errors. -/
theorem upload_exhausted_part_no_commit_witness :
    (0 < numParts [1, 2, 3] ∧ (∀ i, i ≤ 0 → i < (blocksOf [1, 2, 3]).length) ∧
      (∀ a, a < 10 → partFails (envFailParts.partResp 0 a) ((blocksOf [1, 2, 3]).getD 0 []))) ∧
    uploadFile envFailParts [1, 2, 3] = some (false, false) := by
  have h1 : 0 < numParts [1, 2, 3] := by decide
  have h2 : ∀ i, i ≤ 0 → i < (blocksOf [1, 2, 3]).length := by
    intro i hi
    have hi0 : i = 0 := Nat.le_zero.mp hi
    subst hi0
    rw [blocksOf_length_of_pow2 [1, 2, 3] ⟨0, by decide⟩]
    decide
  have h3 : ∀ a, a < 10 → partFails (envFailParts.partResp 0 a) ((blocksOf [1, 2, 3]).getD 0 []) := by
    intro a _
    exact trivial
  exact ⟨⟨h1, h2, h3⟩, upload_exhausted_part_no_commit envFailParts [1, 2, 3] 0 h1 h2 h3⟩

/-- C9 counterexample: for a file of `10000 * (2^52 + 1)` bytes the 32-bit
power-of-two rounding trick overflows (`bitSmear` returns
`1 MiB * (2^33 - 1)`, which is not of the form `1 MiB * 2^k`), the
recursion never reaches a level whose node size equals the chunk size, and
the leaf list comes back empty — its length is not
`max(1, ceil(size / chunkSize))`, and the very first leaf access of the
transfer loop (part index 0) would be out of bounds. -/
theorem blocks_length_fails_at_huge :
    (blocksOf (List.replicate (10000 * (2^52 + 1)) 0)).length = 0 ∧
    ¬ ((blocksOf (List.replicate (10000 * (2^52 + 1)) 0)).length =
        max 1 (cdiv (List.replicate (10000 * (2^52 + 1)) 0).length
          (planOf (List.replicate (10000 * (2^52 + 1)) 0)))) := by
  have hplan : planOf (List.replicate (10000 * (2^52 + 1)) (0:Nat)) = MiB * 8589934591 := by
    unfold planOf
    rw [List.length_replicate]
    decide
  have hj : ∀ j : Nat, MiB * 2^j ≠ planOf (List.replicate (10000 * (2^52 + 1)) 0) := by
    rw [hplan]
    intro j
    cases j with
    | zero => decide
    | succ j =>
      intro hcc
      have he : MiB * 2^(j+1) = 2097152 * 2^j := by
        have h1 : MiB * 2^(j+1) = (MiB * 2) * 2^j := by
          rw [Nat.pow_succ]
          ring
        rw [h1]
        norm_num [MiB]
      have hmod : (MiB * 2^(j+1)) % 2097152 = 0 := by
        rw [he]
        exact Nat.mul_mod_right 2097152 (2^j)
      rw [hcc] at hmod
      have hval : (MiB * 8589934591) % 2097152 = 1048576 := by decide
      omega
  have hzero : (blocksOf (List.replicate (10000 * (2^52 + 1)) 0)).length = 0 := by
    rw [blocksOf_eq,
      recurseHash_fst_nil (planOf (List.replicate (10000 * (2^52 + 1)) 0)) _ _ MiB hj]
    rfl
  refine ⟨hzero, ?_⟩
  rw [hzero]
  intro hc
  omega

/-- C9 amended: for every existing file whose derived chunk size is of the
form `1 MiB * 2^k` — which holds whenever the 32-bit power-of-two rounding
trick of lines 155-161 works, in particular for every size below
`10^4 * 2^52` bytes — the leaf list returned by `hashFile` at the derived
chunk size has length `max(1, ceil(size / chunkSize))`, and consequently
every leaf access (at indices 0 up to the part count) performed by the transfer loop is
within bounds. -/
theorem blocks_cover_parts (content : List Nat)
    (hpow : ∃ k : Nat, planOf content = MiB * 2^k) :
    (blocksOf content).length = max 1 (numParts content) ∧
    ∀ i, i < numParts content → i < (blocksOf content).length := by
  have h : (blocksOf content).length = max 1 (numParts content) :=
    blocksOf_length_of_pow2 content hpow
  refine ⟨h, ?_⟩
  intro i hi
  rw [h]
  omega

/-- C9 amended witness: the theorem applied to a 3-byte file, whose derived
chunk size is the minimum `1 MiB = 1 MiB * 2^0`. -/
theorem blocks_cover_parts_witness :
    (∃ k : Nat, planOf [1, 2, 3] = MiB * 2^k) ∧
    ((blocksOf [1, 2, 3]).length = max 1 (numParts [1, 2, 3]) ∧
      ∀ i, i < numParts [1, 2, 3] → i < (blocksOf [1, 2, 3]).length) :=
  ⟨⟨0, by decide⟩, blocks_cover_parts [1, 2, 3] ⟨0, by decide⟩⟩
